import Mathlib

/-!
Shallow embedding of `src/generate_params.py`, a deterministic job-table
generator: it enumerates the Cartesian product of a size axis, a coupling
axis (the union of a coarse and a fine literal grid, deduplicated and
sorted ascending) and a replica axis `1..N`, derives per-combination
fields, formats one command line per combination and writes the lines,
newline-terminated, to one file.

Numeric model.  Every coupling literal in the script is an exact decimal
(a multiple of `1/100`), and every quantity the script derives from one
(`1.0 - lam`, `round(lam, 6)`, `round(1.0 - lam, 6)`, the `.3f`
rendering) is again an exact decimal that double-precision arithmetic
computes and renders exactly as decimal arithmetic would: the binary
representation error of these doubles (about `10^-17`) is far below every
rounding boundary the script uses (`5 * 10^-7` for `round(_, 6)`,
`5 * 10^-4` for `.3f`), and Python's `repr` prints the shortest decimal
that recovers the double, which for these values is the decimal itself.
We therefore embed a float as the exact decimal it denotes: a mantissa
`m : ℤ` with an exponent `e : ℕ`, standing for the value `m / 10 ^ e`.
All operations on this type are structural integer arithmetic, and
`Dec.toQ` interprets it into `ℚ` for the algebraic claims.  Python's
arbitrary-precision integers never overflow, so `ℕ` models them directly.
-/

set_option maxRecDepth 100000

namespace GenerateParams

/-- An exact decimal value `m / 10 ^ e`: the embedding of a Python float
whose value is an exact decimal (every float this script computes is). -/
structure Dec where
  m : ℤ
  e : ℕ
  deriving DecidableEq

/-- Interpretation of an exact decimal as a rational number. -/
def Dec.toQ (d : Dec) : ℚ := (d.m : ℚ) / 10 ^ d.e

/-- Numeric comparison of two exact decimals (the order IEEE comparison
gives on the corresponding doubles). -/
def Dec.le (a b : Dec) : Prop := a.m * 10 ^ b.e ≤ b.m * 10 ^ a.e

/-- Strict numeric comparison of two exact decimals. -/
def Dec.lt (a b : Dec) : Prop := a.m * 10 ^ b.e < b.m * 10 ^ a.e

instance : LE Dec := ⟨Dec.le⟩

instance : LT Dec := ⟨Dec.lt⟩

instance : DecidableRel (fun a b : Dec => a ≤ b) := fun a b =>
  inferInstanceAs (Decidable (a.m * 10 ^ b.e ≤ b.m * 10 ^ a.e))

instance : DecidableRel (fun a b : Dec => a < b) := fun a b =>
  inferInstanceAs (Decidable (a.m * 10 ^ b.e < b.m * 10 ^ a.e))

/-- `1.0 - x` on exact decimals (lines 31 of the script computes it on
doubles; for the script's values the double subtraction is exact). -/
def Dec.oneSub (d : Dec) : Dec := ⟨10 ^ d.e - d.m, d.e⟩

/-- Round-half-to-even integer division (`b > 0` intended): the integer
nearest to `a / b`, ties going to the even neighbour.  This is the tie
rule of Python's `round` on doubles. -/
def halfEvenDiv (a b : ℤ) : ℤ :=
  let q := Int.fdiv a b
  let r := a - q * b
  if 2 * r < b then q
  else if b < 2 * r then q + 1
  else if q % 2 = 0 then q else q + 1

/-- Python `round(x, k)` on an exact decimal: the nearest multiple of
`10 ^ (-k)`, ties to even.  When the value is already a multiple of
`10 ^ (-k)` (the only case this script exercises) no rounding occurs and
only the exponent is brought to `k`. -/
def Dec.roundTo (k : ℕ) (d : Dec) : Dec :=
  if d.e ≤ k then ⟨d.m * 10 ^ (k - d.e), k⟩
  else ⟨halfEvenDiv d.m (10 ^ (d.e - k)), k⟩

/-- Drop trailing decimal zeros of a mantissa/exponent pair: the
normalisation `repr` applies when printing a double. -/
def stripZeros : ℤ → ℕ → ℤ × ℕ
  | m, 0 => (m, 0)
  | m, e + 1 => if m % 10 = 0 then stripZeros (m / 10) e else (m, e + 1)

/-- A natural number printed in decimal, left-padded with zeros to the
given width. -/
def natPadded (v width : ℕ) : String :=
  String.mk (List.replicate (width - (toString v).length) '0') ++ toString v

/-- Python `repr` (and f-string rendering) of a float in `[0, 1)` whose
value is an exact decimal: the shortest decimal form, i.e. trailing
zeros dropped (`0.5` for `0.50`, `0.0` for `0.0`, `0.46` for `0.46`). -/
def Dec.pyRepr (d : Dec) : String :=
  let p := stripZeros d.m d.e
  if p.2 = 0 then toString p.1 ++ ".0"
  else "0." ++ natPadded p.1.toNat p.2

/-- Python `f"{x:.3f}"` for a float in `[0, 1)` holding an exact decimal:
round to 3 decimal places, then print exactly three digits after the
point. -/
def Dec.fmt3 (d : Dec) : String :=
  "0." ++ natPadded (Dec.roundTo 3 d).m.toNat 3

/-- `Ls = [12, 16, 20, 24, 28]` (line 7 of the script). -/
def Ls : List ℕ := [12, 16, 20, 24, 28]

/-- `coarse_lambdas = [0.1, 0.2, 0.3, 0.4, 0.6, 0.7, 0.8, 0.9]`
(line 10), each literal as the exact decimal it denotes. -/
def coarse_lambdas : List Dec :=
  [⟨1, 1⟩, ⟨2, 1⟩, ⟨3, 1⟩, ⟨4, 1⟩, ⟨6, 1⟩, ⟨7, 1⟩, ⟨8, 1⟩, ⟨9, 1⟩]

/-- `fine_lambdas = [0.46, 0.47, 0.48, 0.49, 0.50, 0.51, 0.52, 0.53,
0.54]` (line 11). -/
def fine_lambdas : List Dec :=
  [⟨46, 2⟩, ⟨47, 2⟩, ⟨48, 2⟩, ⟨49, 2⟩, ⟨50, 2⟩, ⟨51, 2⟩, ⟨52, 2⟩,
   ⟨53, 2⟩, ⟨54, 2⟩]

/-- `sorted(list(set(coarse + fine)))` (line 12): the distinct elements
of the concatenation, sorted ascending.  `List.dedup` removes duplicates
as Python's `set` does (in some order the subsequent sort cancels), and
`insertionSort (· ≤ ·)` sorts ascending as Python's `sorted`. -/
def mergedLambdas (coarse fine : List Dec) : List Dec :=
  ((coarse ++ fine).dedup).insertionSort (· ≤ ·)

/-- `lambdas` (line 12), instantiated with the script's literals. -/
def lambdas : List Dec := mergedLambdas coarse_lambdas fine_lambdas

/-- `samples_per_lambda = 3` (line 15). -/
def samples_per_lambda : ℕ := 3

/-- `maxdim = 256` (line 16). -/
def maxdim : ℕ := 256

/-- `ntrials = 1000` (line 18). -/
def ntrials : ℕ := 1000

/-- `chunk4 = 50000` (line 19). -/
def chunk4 : ℕ := 50000

/-- `base_seed = 1234` (line 20). -/
def base_seed : ℕ := 1234

/-- `outdir = "output"` (line 21). -/
def outdir : String := "output"

/-- `cutoff = 1e-12` (line 17); the script only ever renders it, and
Python renders this double as `1e-12`. -/
def cutoffRepr : String := "1e-12"

/-- One iteration of the innermost loop body (lines 29-33): the fields
the script derives for a single (size, coupling, replica) combination. -/
structure Job where
  L : ℕ
  lam : Dec
  lambda_x : Dec
  lambda_zz : Dec
  seed : ℕ
  sample : ℕ
  job_id : ℕ
  deriving DecidableEq

/-- Build the job record for one combination, given the base seed and the
1-based sequential identifier (lines 29-32 of the script). -/
def mkJob (bs : ℕ) (id : ℕ) : ℕ × Dec × ℕ → Job
  | (L, lam, s) =>
    { L := L, lam := lam, lambda_x := Dec.roundTo 6 lam,
      lambda_zz := Dec.roundTo 6 (Dec.oneSub lam), seed := bs + id,
      sample := s, job_id := id }

/-- The triple nesting of lines 26-28: sizes outermost in list order,
then the coupling list in its order, then `sample` over `1..n`. -/
def jobTriples (sizes : List ℕ) (lams : List Dec) (n : ℕ) :
    List (ℕ × Dec × ℕ) :=
  sizes.flatMap fun L =>
    lams.flatMap fun lam =>
      (List.range' 1 n).map fun s => (L, lam, s)

/-- The whole enumeration (lines 23-36) as a list of job records:
`job_id` starts at 0 before the loop and is incremented once per
combination before use, so the record produced by the k-th combination
(0-based) carries identifier `k + 1`. -/
def genJobs (sizes : List ℕ) (coarse fine : List Dec) (n bs : ℕ) :
    List Job :=
  (jobTriples sizes (mergedLambdas coarse fine) n).enum.map fun p =>
    mkJob bs (p.1 + 1) p.2

/-- `out_prefix` (line 33): `f"L{L}_lam{lam:.3f}_s{sample}"`. -/
def outPrefixStr (j : Job) : String :=
  "L" ++ toString j.L ++ "_lam" ++ Dec.fmt3 j.lam ++ "_s" ++
    toString j.sample

/-- The formatted argument line (line 35 of the script). -/
def mkLine (j : Job) : String :=
  "--L " ++ toString j.L ++
  " --lambda_x " ++ Dec.pyRepr j.lambda_x ++
  " --lambda_zz " ++ Dec.pyRepr j.lambda_zz ++
  " --lambda " ++ Dec.pyRepr j.lam ++
  " --maxdim " ++ toString maxdim ++
  " --cutoff " ++ cutoffRepr ++
  " --ntrials " ++ toString ntrials ++
  " --chunk4 " ++ toString chunk4 ++
  " --seed " ++ toString j.seed ++
  " --sample " ++ toString j.sample ++
  " --out_prefix " ++ outPrefixStr j ++
  " --outdir " ++ outdir

/-- The list `lines` accumulated by the loop (lines 23-36). -/
def genLines (sizes : List ℕ) (coarse fine : List Dec) (n bs : ℕ) :
    List String :=
  (genJobs sizes coarse fine n bs).map mkLine

/-- The script's actual run: its literal axes and constants. -/
def scriptJobs : List Job :=
  genJobs Ls coarse_lambdas fine_lambdas samples_per_lambda base_seed

/-- The lines of the script's actual run. -/
def scriptLines : List String :=
  genLines Ls coarse_lambdas fine_lambdas samples_per_lambda base_seed

/-- The content written to `jobs/params_production.txt` (lines 39-41):
each line is written followed by a newline, in order. -/
def fileContent (lines : List String) : String :=
  lines.foldl (fun acc line => acc ++ line ++ "\n") ""

/-- The five summary lines printed to standard output (lines 43-47). -/
def summary (sizes : List ℕ) (lams : List Dec) (n : ℕ)
    (lines : List String) : List String :=
  [ "Generated " ++ toString lines.length ++ " parameter combinations",
    "System sizes: " ++ toString sizes.length,
    "Lambda values: " ++ toString lams.length,
    "Samples per lambda: " ++ toString n,
    "Total: " ++ toString sizes.length ++ " × " ++ toString lams.length ++
      " × " ++ toString n ++ " = " ++ toString lines.length ++ " jobs" ]

/-- Split a character list on every occurrence of a separator character
(the token structure a downstream consumer of a line sees; with `' '` it
matches Python's `line.split(" ")`). -/
def splitOnChar (sep : Char) : List Char → List (List Char)
  | [] => [[]]
  | c :: cs =>
    if c = sep then [] :: splitOnChar sep cs
    else
      match splitOnChar sep cs with
      | [] => [[c]]
      | t :: ts => (c :: t) :: ts

/-- The space-separated tokens of a line. -/
def tokensOf (line : String) : List String :=
  (splitOnChar ' ' line.data).map fun cs => String.mk cs

/-- The elements at even positions (0, 2, 4, ...) of a list: for a
well-formed argument line these are the `--name` flags. -/
def evens {α : Type} : List α → List α
  | [] => []
  | [a] => [a]
  | a :: _ :: rest => a :: evens rest

/-- The fixed flag order of the output line format. -/
def flagNames : List String :=
  ["--L", "--lambda_x", "--lambda_zz", "--lambda", "--maxdim", "--cutoff",
   "--ntrials", "--chunk4", "--seed", "--sample", "--out_prefix",
   "--outdir"]

/-! ### Arithmetic facts about exact decimals -/

theorem Dec.le_iff_toQ {a b : Dec} : a ≤ b ↔ a.toQ ≤ b.toQ := by
  show Dec.le a b ↔ _
  rw [Dec.le, Dec.toQ, Dec.toQ,
    div_le_div_iff₀ (by positivity) (by positivity)]
  exact_mod_cast Iff.rfl

theorem Dec.lt_iff_toQ {a b : Dec} : a < b ↔ a.toQ < b.toQ := by
  show Dec.lt a b ↔ _
  rw [Dec.lt, Dec.toQ, Dec.toQ,
    div_lt_div_iff₀ (by positivity) (by positivity)]
  exact_mod_cast Iff.rfl

instance : IsTotal Dec (· ≤ ·) :=
  ⟨fun a b => by
    rw [Dec.le_iff_toQ, Dec.le_iff_toQ]; exact le_total a.toQ b.toQ⟩

instance : IsTrans Dec (· ≤ ·) :=
  ⟨fun a b c hab hbc => by
    rw [Dec.le_iff_toQ] at *; exact le_trans hab hbc⟩

/-- Rounding to `k` decimal places does not change the value of an exact
decimal already expressible with `k` decimal places. -/
theorem Dec.toQ_roundTo {k : ℕ} {d : Dec} (h : d.e ≤ k) :
    (Dec.roundTo k d).toQ = d.toQ := by
  rw [Dec.roundTo, if_pos h, Dec.toQ, Dec.toQ]
  push_cast
  rw [div_eq_div_iff (by positivity) (by positivity), mul_assoc,
    ← pow_add]
  congr 2
  omega

/-- `1.0 - x` on exact decimals computes exactly `1 - x`. -/
theorem Dec.toQ_oneSub (d : Dec) : (Dec.oneSub d).toQ = 1 - d.toQ := by
  have h : ((10 : ℚ) ^ d.e) ≠ 0 := by positivity
  rw [Dec.oneSub, Dec.toQ, Dec.toQ]
  push_cast
  field_simp

/-- The two derived coupling fields of any combination sum to exactly 1:
rounding to 6 places is exact on any value with at most 6 decimals, and
the complement `1.0 - lam` is such a value whenever `lam` is. -/
theorem Dec.roundTo_sum (d : Dec) (h : d.e ≤ 6) :
    (Dec.roundTo 6 d).toQ + (Dec.roundTo 6 (Dec.oneSub d)).toQ = 1 := by
  rw [Dec.toQ_roundTo h, Dec.toQ_roundTo (show (Dec.oneSub d).e ≤ 6 from h),
    Dec.toQ_oneSub]
  ring

/-! ### Characters emitted by numeric rendering

Every character `Nat.repr`, `Int.repr` and our decimal renderers emit is
a digit, a sign, a dot or a letter: never a space and never a newline.
These two facts make the emitted lines tokenizable. -/

/-- A character that can appear inside one token of an emitted line:
not the space separator and not the line terminator. -/
def safeChar (c : Char) : Prop := c ≠ ' ' ∧ c ≠ Char.ofNat 10

instance (c : Char) : Decidable (safeChar c) :=
  inferInstanceAs (Decidable (_ ∧ _))

theorem safeChar_digitChar {n : ℕ} (h : n < 10) :
    safeChar (Nat.digitChar n) := by
  interval_cases n <;> decide

theorem safeChar_toDigitsCore {fuel n : ℕ} {acc : List Char}
    (h : ∀ c ∈ acc, safeChar c) :
    ∀ c ∈ Nat.toDigitsCore 10 fuel n acc, safeChar c := by
  induction fuel generalizing n acc with
  | zero => simpa [Nat.toDigitsCore] using h
  | succ f ih =>
    rw [Nat.toDigitsCore]
    split
    · intro c hc
      rcases List.mem_cons.mp hc with hc | hc
      · exact hc ▸ safeChar_digitChar (Nat.mod_lt _ (by omega))
      · exact h c hc
    · refine ih fun c hc => ?_
      rcases List.mem_cons.mp hc with hc | hc
      · exact hc ▸ safeChar_digitChar (Nat.mod_lt _ (by omega))
      · exact h c hc

theorem toString_nat_data (n : ℕ) :
    (toString n).data = Nat.toDigits 10 n := rfl

theorem safe_toString_nat (n : ℕ) : ∀ c ∈ (toString n).data, safeChar c := by
  rw [toString_nat_data, Nat.toDigits]
  exact safeChar_toDigitsCore (by simp)

theorem toDigitsCore_ne_nil_of_acc {b fuel n : ℕ} {acc : List Char}
    (h : acc ≠ []) : Nat.toDigitsCore b fuel n acc ≠ [] := by
  induction fuel generalizing n acc with
  | zero => simpa [Nat.toDigitsCore] using h
  | succ f ih =>
    rw [Nat.toDigitsCore]
    split
    · simp
    · exact ih (by simp)

theorem toString_nat_ne_nil (n : ℕ) : (toString n).data ≠ [] := by
  rw [toString_nat_data, Nat.toDigits]
  rw [Nat.toDigitsCore]
  split
  · simp
  · exact toDigitsCore_ne_nil_of_acc (by simp)

/-- A string all of whose characters are safe: it can stand as one token
of an emitted line. -/
def safeStr (s : String) : Prop := ∀ c ∈ s.data, safeChar c

instance : DecidablePred safeStr := fun s =>
  List.decidableBAll safeChar s.data

theorem safeStr_append {s t : String} (hs : safeStr s) (ht : safeStr t) :
    safeStr (s ++ t) := by
  intro c hc
  rw [String.data_append] at hc
  rcases List.mem_append.mp hc with h | h
  · exact hs c h
  · exact ht c h

theorem safeStr_toString_nat (n : ℕ) : safeStr (toString n) :=
  safe_toString_nat n

theorem safeStr_toString_int (i : ℤ) : safeStr (toString i) := by
  cases i with
  | ofNat n => exact safeStr_toString_nat n
  | negSucc n =>
    show safeStr ("-" ++ toString (n + 1))
    exact safeStr_append (by decide) (safeStr_toString_nat (n + 1))

theorem safeStr_natPadded (v width : ℕ) : safeStr (natPadded v width) := by
  refine safeStr_append ?_ (safeStr_toString_nat v)
  intro c hc
  have : c = '0' := by
    have := List.eq_of_mem_replicate hc
    exact this
  rw [this]
  decide

theorem safeStr_pyRepr (d : Dec) : safeStr (Dec.pyRepr d) := by
  rw [Dec.pyRepr]
  split
  · exact safeStr_append (safeStr_toString_int _) (by decide)
  · exact safeStr_append (by decide) (safeStr_natPadded _ _)

theorem safeStr_fmt3 (d : Dec) : safeStr (Dec.fmt3 d) :=
  safeStr_append (by decide) (safeStr_natPadded _ _)

theorem safeStr_outPrefixStr (j : Job) : safeStr (outPrefixStr j) := by
  refine safeStr_append (safeStr_append (safeStr_append (safeStr_append
    (safeStr_append ?_ (safeStr_toString_nat _)) ?_) (safeStr_fmt3 _)) ?_)
    (safeStr_toString_nat _)
  all_goals decide

theorem toString_nat_ne_empty (n : ℕ) : toString n ≠ "" := by
  intro h
  exact toString_nat_ne_nil n (congrArg String.data h)

/-! ### Tokenization of emitted lines -/

theorem splitOnChar_ne_nil (sep : Char) (l : List Char) :
    splitOnChar sep l ≠ [] := by
  cases l with
  | nil => simp [splitOnChar]
  | cons c cs =>
    rw [splitOnChar]
    split_ifs
    · simp
    · rcases h : splitOnChar sep cs with _ | ⟨t, ts⟩ <;> simp

/-- Splitting a separator-free chunk yields that single token. -/
theorem splitOnChar_eq_single {sep : Char} {l : List Char}
    (h : sep ∉ l) : splitOnChar sep l = [l] := by
  induction l with
  | nil => rfl
  | cons c cs ih =>
    rw [splitOnChar,
      if_neg (fun hc : c = sep => h (hc ▸ List.mem_cons_self _ _)),
      ih (fun hc => h (List.mem_cons_of_mem _ hc))]

/-- Splitting a string that starts with the separator emits an empty
token and continues. -/
theorem splitOnChar_sep_cons (sep : Char) (l : List Char) :
    splitOnChar sep (sep :: l) = [] :: splitOnChar sep l := by
  rw [splitOnChar, if_pos rfl]

/-- Splitting `w ++ sep :: rest` where `w` is separator-free: `w` is the
first token and the rest is split on its own. -/
theorem splitOnChar_chunk (sep : Char) {w : List Char} (rest : List Char)
    (hw : sep ∉ w) :
    splitOnChar sep (w ++ sep :: rest) = w :: splitOnChar sep rest := by
  induction w with
  | nil => simpa using splitOnChar_sep_cons sep rest
  | cons c cs ih =>
    rw [List.cons_append, splitOnChar,
      if_neg (fun hc : c = sep => hw (hc ▸ List.mem_cons_self _ _)),
      ih (fun h => hw (List.mem_cons_of_mem _ h))]

/-- Interleave a separator between tokens (the inverse image of
`splitOnChar` on well-formed token lists). -/
def joinTokens (sep : Char) : List (List Char) → List Char
  | [] => []
  | [t] => t
  | t :: t' :: ts => t ++ sep :: joinTokens sep (t' :: ts)

theorem splitOnChar_joinTokens (sep : Char) :
    ∀ (ts : List (List Char)), ts ≠ [] → (∀ t ∈ ts, sep ∉ t) →
      splitOnChar sep (joinTokens sep ts) = ts
  | [], h, _ => absurd rfl h
  | [t], _, hs => by
    rw [joinTokens, splitOnChar_eq_single (hs t (List.mem_cons_self _ _))]
  | t :: t' :: ts, _, hs => by
    rw [joinTokens, splitOnChar_chunk sep _ (hs t (List.mem_cons_self _ _)),
      splitOnChar_joinTokens sep (t' :: ts) (by simp)
        (fun u hu => hs u (List.mem_cons_of_mem _ hu))]

theorem mem_joinTokens {sep c : Char} :
    ∀ {ts : List (List Char)}, c ∈ joinTokens sep ts →
      c = sep ∨ ∃ t ∈ ts, c ∈ t
  | [], h => by simp [joinTokens] at h
  | [t], h => Or.inr ⟨t, List.mem_cons_self _ _, h⟩
  | t :: t' :: ts, h => by
    rw [joinTokens] at h
    rcases List.mem_append.mp h with h | h
    · exact Or.inr ⟨t, List.mem_cons_self _ _, h⟩
    · rcases List.mem_cons.mp h with h | h
      · exact Or.inl h
      · rcases mem_joinTokens h with h | ⟨u, hu, hc⟩
        · exact Or.inl h
        · exact Or.inr ⟨u, List.mem_cons_of_mem _ hu, hc⟩

/-- The twenty-four tokens every emitted line is made of, in order:
twelve `--name` flags, each followed by its value. -/
def lineTokens (j : Job) : List String :=
  ["--L", toString j.L, "--lambda_x", Dec.pyRepr j.lambda_x,
   "--lambda_zz", Dec.pyRepr j.lambda_zz, "--lambda", Dec.pyRepr j.lam,
   "--maxdim", toString maxdim, "--cutoff", cutoffRepr,
   "--ntrials", toString ntrials, "--chunk4", toString chunk4,
   "--seed", toString j.seed, "--sample", toString j.sample,
   "--out_prefix", outPrefixStr j, "--outdir", outdir]

theorem mkLine_data (j : Job) :
    (mkLine j).data = joinTokens ' ' ((lineTokens j).map String.data) := by
  simp only [mkLine, lineTokens, joinTokens, List.map, String.data_append,
    List.append_assoc, List.cons_append, List.nil_append]

theorem safe_lineTokens (j : Job) : ∀ t ∈ lineTokens j, safeStr t := by
  intro t ht
  simp only [lineTokens, List.mem_cons, List.not_mem_nil, or_false] at ht
  rcases ht with rfl | rfl | rfl | rfl | rfl | rfl | rfl | rfl | rfl | rfl |
    rfl | rfl | rfl | rfl | rfl | rfl | rfl | rfl | rfl | rfl | rfl | rfl |
    rfl | rfl
  all_goals first
    | decide
    | exact safeStr_toString_nat _
    | exact safeStr_pyRepr _
    | exact safeStr_outPrefixStr _

/-- Every emitted line splits on spaces into exactly its twenty-four
tokens: no rendered value contains a space. -/
theorem tokensOf_mkLine (j : Job) : tokensOf (mkLine j) = lineTokens j := by
  have hmk : (fun cs => String.mk cs) ∘ String.data = @id String :=
    funext fun s => rfl
  rw [tokensOf, mkLine_data,
    splitOnChar_joinTokens ' ' _ (by simp [lineTokens]) (by
      intro t ht
      rcases List.mem_map.mp ht with ⟨s, hs, rfl⟩
      intro hsp
      exact (safe_lineTokens j s hs ' ' hsp).1 rfl),
    List.map_map, hmk, List.map_id]

theorem newline_not_mem_mkLine (j : Job) :
    Char.ofNat 10 ∉ (mkLine j).data := by
  rw [mkLine_data]
  intro h
  rcases mem_joinTokens h with h | ⟨t, ht, hc⟩
  · exact absurd h (by decide)
  · rcases List.mem_map.mp ht with ⟨s, hs, rfl⟩
    exact (safe_lineTokens j s hs _ hc).2 rfl

theorem append_ne_empty_left {s : String} (t : String) (hs : s ≠ "") :
    s ++ t ≠ "" := by
  intro h
  have := congrArg String.data h
  rw [String.data_append] at this
  exact hs (String.ext (List.append_eq_nil.mp this).1)

theorem append_ne_empty_right (s : String) {t : String} (ht : t ≠ "") :
    s ++ t ≠ "" := by
  intro h
  have := congrArg String.data h
  rw [String.data_append] at this
  exact ht (String.ext (List.append_eq_nil.mp this).2)

theorem pyRepr_ne_empty (d : Dec) : Dec.pyRepr d ≠ "" := by
  rw [Dec.pyRepr]
  split
  · intro h
    have := congrArg String.data h
    rw [String.data_append] at this
    exact absurd (String.ext (List.append_eq_nil.mp this).2 :
      (".0" : String) = "") (by decide)
  · exact append_ne_empty_left _ (by decide)

theorem tokensOf_mkLine_ne_empty (j : Job) :
    ∀ t ∈ tokensOf (mkLine j), t ≠ "" := by
  rw [tokensOf_mkLine]
  intro t ht
  simp only [lineTokens, List.mem_cons, List.not_mem_nil, or_false] at ht
  rcases ht with rfl | rfl | rfl | rfl | rfl | rfl | rfl | rfl | rfl | rfl |
    rfl | rfl | rfl | rfl | rfl | rfl | rfl | rfl | rfl | rfl | rfl | rfl |
    rfl | rfl
  all_goals first
    | decide
    | exact toString_nat_ne_empty _
    | exact pyRepr_ne_empty _
    | exact append_ne_empty_right _ (toString_nat_ne_empty _)

/-! ### The output file: one newline-terminated record per line -/

theorem fileContent_foldl (lines : List String) :
    ∀ init : String,
      (lines.foldl (fun acc line => acc ++ line ++ "\n") init).data =
        init.data ++ (lines.map fun l => l.data ++ [Char.ofNat 10]).flatten := by
  induction lines with
  | nil => intro init; simp
  | cons l ls ih =>
    intro init
    have hnl : ("\n" : String).data = [Char.ofNat 10] := by decide
    rw [List.foldl_cons, ih, List.map_cons, List.flatten_cons,
      String.data_append, String.data_append, hnl]
    simp only [List.append_assoc]

theorem fileContent_data (lines : List String) :
    (fileContent lines).data =
      (lines.map fun l => l.data ++ [Char.ofNat 10]).flatten := by
  rw [fileContent, fileContent_foldl]
  rfl

theorem splitOnChar_join_newline :
    ∀ (ls : List (List Char)), (∀ l ∈ ls, Char.ofNat 10 ∉ l) →
      splitOnChar (Char.ofNat 10)
          ((ls.map fun l => l ++ [Char.ofNat 10]).flatten) = ls ++ [[]]
  | [], _ => rfl
  | l :: ls, h => by
    rw [List.map_cons, List.flatten_cons, List.append_assoc,
      List.singleton_append,
      splitOnChar_chunk _ _ (h l (List.mem_cons_self _ _)),
      splitOnChar_join_newline ls
        (fun x hx => h x (List.mem_cons_of_mem _ hx)),
      List.cons_append]

/-- Splitting the file content on newlines recovers exactly the emitted
lines, each of which is newline-terminated, plus the empty trailing
segment after the final newline. -/
theorem splitNl_fileContent (lines : List String)
    (h : ∀ l ∈ lines, Char.ofNat 10 ∉ l.data) :
    splitOnChar (Char.ofNat 10) (fileContent lines).data =
      lines.map String.data ++ [[]] := by
  rw [fileContent_data,
    show (lines.map fun l => l.data ++ [Char.ofNat 10]) =
      ((lines.map String.data).map fun l => l ++ [Char.ofNat 10]) by
        rw [List.map_map]; rfl]
  exact splitOnChar_join_newline _ (by
    intro l hl
    rcases List.mem_map.mp hl with ⟨s, hs, rfl⟩
    exact h s hs)

/-! ### Structure of the enumeration -/

theorem mkJob_L (bs id : ℕ) (t : ℕ × Dec × ℕ) : (mkJob bs id t).L = t.1 := by
  rcases t with ⟨L, lam, s⟩; rfl

theorem mkJob_lam (bs id : ℕ) (t : ℕ × Dec × ℕ) :
    (mkJob bs id t).lam = t.2.1 := by
  rcases t with ⟨L, lam, s⟩; rfl

theorem mkJob_lambda_x (bs id : ℕ) (t : ℕ × Dec × ℕ) :
    (mkJob bs id t).lambda_x = Dec.roundTo 6 t.2.1 := by
  rcases t with ⟨L, lam, s⟩; rfl

theorem mkJob_lambda_zz (bs id : ℕ) (t : ℕ × Dec × ℕ) :
    (mkJob bs id t).lambda_zz = Dec.roundTo 6 (Dec.oneSub t.2.1) := by
  rcases t with ⟨L, lam, s⟩; rfl

theorem mkJob_seed (bs id : ℕ) (t : ℕ × Dec × ℕ) :
    (mkJob bs id t).seed = bs + id := by
  rcases t with ⟨L, lam, s⟩; rfl

theorem mkJob_sample (bs id : ℕ) (t : ℕ × Dec × ℕ) :
    (mkJob bs id t).sample = t.2.2 := by
  rcases t with ⟨L, lam, s⟩; rfl

theorem mkJob_job_id (bs id : ℕ) (t : ℕ × Dec × ℕ) :
    (mkJob bs id t).job_id = id := by
  rcases t with ⟨L, lam, s⟩; rfl

theorem length_flatMap_const {α β : Type} (l : List α) (f : α → List β)
    (m : ℕ) (h : ∀ a, (f a).length = m) :
    (l.flatMap f).length = l.length * m := by
  induction l with
  | nil => simp
  | cons a t ih =>
    rw [List.flatMap_cons, List.length_append, h, ih, List.length_cons]
    ring

theorem length_jobTriples (sizes : List ℕ) (lams : List Dec) (n : ℕ) :
    (jobTriples sizes lams n).length = sizes.length * (lams.length * n) := by
  rw [jobTriples]
  refine length_flatMap_const _ _ _ fun L => ?_
  refine length_flatMap_const _ _ _ fun lam => ?_
  simp

/-- The number of generated jobs is the product of the three axis
cardinalities. -/
theorem length_genJobs (sizes : List ℕ) (coarse fine : List Dec)
    (n bs : ℕ) :
    (genJobs sizes coarse fine n bs).length =
      sizes.length * ((mergedLambdas coarse fine).length * n) := by
  rw [genJobs, List.length_map, List.enum_eq_enumFrom,
    List.enumFrom_length, length_jobTriples]

theorem enumFrom_map_fst_succ {α : Type} :
    ∀ (k : ℕ) (l : List α),
      (List.enumFrom k l).map (fun p => p.1 + 1) =
        List.range' (k + 1) l.length
  | _, [] => rfl
  | k, a :: t => by
    rw [show List.enumFrom k (a :: t) = (k, a) :: List.enumFrom (k + 1) t
      from rfl, List.map_cons, enumFrom_map_fst_succ (k + 1) t]
    rfl

/-- The sequential identifiers are exactly `1, 2, ..., total` in order. -/
theorem genJobs_map_job_id (sizes : List ℕ) (coarse fine : List Dec)
    (n bs : ℕ) :
    (genJobs sizes coarse fine n bs).map Job.job_id =
      List.range' 1 (genJobs sizes coarse fine n bs).length := by
  rw [genJobs, List.map_map, List.length_map, List.enum_eq_enumFrom]
  have step :
      ((jobTriples sizes (mergedLambdas coarse fine) n).enumFrom 0).map
          (Job.job_id ∘ fun p => mkJob bs (p.1 + 1) p.2) =
        ((jobTriples sizes (mergedLambdas coarse fine) n).enumFrom 0).map
          (fun p => p.1 + 1) :=
    List.map_congr_left fun p _ => mkJob_job_id bs (p.1 + 1) p.2
  rw [step, enumFrom_map_fst_succ, List.enumFrom_length]

/-- Every job's seed is the base seed plus its identifier. -/
theorem genJobs_map_seed (sizes : List ℕ) (coarse fine : List Dec)
    (n bs : ℕ) :
    (genJobs sizes coarse fine n bs).map Job.seed =
      (genJobs sizes coarse fine n bs).map (fun j => bs + j.job_id) := by
  rw [genJobs, List.map_map, List.map_map]
  refine List.map_congr_left fun p _ => ?_
  show (mkJob bs (p.1 + 1) p.2).seed = bs + (mkJob bs (p.1 + 1) p.2).job_id
  rw [mkJob_seed, mkJob_job_id]

/-- Inversion: what being a generated job says about the record. -/
theorem mem_genJobs {sizes : List ℕ} {coarse fine : List Dec} {n bs : ℕ}
    {j : Job} (hj : j ∈ genJobs sizes coarse fine n bs) :
    j.L ∈ sizes ∧ j.lam ∈ mergedLambdas coarse fine ∧
      j.sample ∈ List.range' 1 n ∧
      j.lambda_x = Dec.roundTo 6 j.lam ∧
      j.lambda_zz = Dec.roundTo 6 (Dec.oneSub j.lam) ∧
      j.seed = bs + j.job_id := by
  rw [genJobs] at hj
  rcases List.mem_map.mp hj with ⟨p, hp, rfl⟩
  have hp2 : p.2 ∈ jobTriples sizes (mergedLambdas coarse fine) n := by
    have hm : p.2 ∈ ((jobTriples sizes (mergedLambdas coarse fine) n).enum).map
        Prod.snd := List.mem_map_of_mem _ hp
    rwa [List.enum_eq_enumFrom, List.enumFrom_map_snd] at hm
  simp only [jobTriples, List.mem_flatMap, List.mem_map] at hp2
  obtain ⟨L, hL, lam, hlam, s, hs, heq⟩ := hp2
  rcases p with ⟨i, t⟩
  cases heq
  rw [mkJob_L, mkJob_lam, mkJob_lambda_x, mkJob_lambda_zz, mkJob_sample,
    mkJob_seed, mkJob_job_id]
  exact ⟨hL, hlam, hs, rfl, rfl, rfl⟩

theorem getElem?_flatMap_const {α β : Type} (l : List α) (f : α → List β)
    (m : ℕ) (h : ∀ a, (f a).length = m) (k : ℕ) :
    (l.flatMap f)[k]? = (l[k / m]?).bind fun a => (f a)[k % m]? := by
  induction l generalizing k with
  | nil => simp
  | cons a t ih =>
    rw [List.flatMap_cons]
    rcases Nat.eq_zero_or_pos m with hm | hm
    · have hfa : ∀ x, f x = [] := fun x =>
        List.length_eq_zero.mp (hm ▸ h x)
      have hnil : t.flatMap f = [] :=
        List.flatMap_eq_nil_iff.mpr fun x _ => hfa x
      rw [hfa a, hnil, List.nil_append]
      cases hx : (a :: t)[k / m]? with
      | none => simp
      | some x => simp [hfa x]
    · by_cases hk : k < m
      · rw [List.getElem?_append_left (by rw [h a]; exact hk),
          Nat.div_eq_of_lt hk, Nat.mod_eq_of_lt hk]
        simp
      · push_neg at hk
        rw [List.getElem?_append_right (by rw [h a]; exact hk), h a, ih,
          Nat.div_eq_sub_div hm hk, Nat.mod_eq_sub_mod hk,
          List.getElem?_cons_succ]

/-- The k-th combination (0-based) of the triple loop, in closed form:
size index `k / (#couplings * n)`, coupling index `k / n mod #couplings`,
replica `1 + k mod n`.  This is exactly the size-major, coupling-next,
replica-minor nesting. -/
theorem getElem?_jobTriples (sizes : List ℕ) (lams : List Dec)
    (n k : ℕ) :
    (jobTriples sizes lams n)[k]? =
      (sizes[k / (lams.length * n)]?).bind fun L =>
        (lams[k / n % lams.length]?).bind fun lam =>
          if 0 < n then some (L, lam, 1 + k % n) else none := by
  rw [jobTriples, getElem?_flatMap_const _ _ (lams.length * n) fun L => by
    refine length_flatMap_const _ _ _ fun lam => ?_
    simp]
  cases hL : sizes[k / (lams.length * n)]? with
  | none => rfl
  | some L =>
    show (lams.flatMap fun lam =>
        (List.range' 1 n).map fun s => (L, lam, s))[k % (lams.length * n)]? = _
    rw [getElem?_flatMap_const _ _ n fun lam => by simp,
      Nat.mod_mul_left_div_self,
      Nat.mod_mod_of_dvd _ ⟨lams.length, Nat.mul_comm _ _⟩]
    cases hlam : lams[k / n % lams.length]? with
    | none => rfl
    | some lam =>
      show ((List.range' 1 n).map fun s => (L, lam, s))[k % n]? = _
      rw [List.getElem?_map]
      by_cases hn : 0 < n
      · rw [List.getElem?_range' _ _ (Nat.mod_lt _ hn)]
        simp [hn]
      · have h0 : n = 0 := by omega
        subst h0
        simp

/-- The k-th generated job, in closed form. -/
theorem getElem?_genJobs (sizes : List ℕ) (coarse fine : List Dec)
    (n bs k : ℕ) :
    (genJobs sizes coarse fine n bs)[k]? =
      (sizes[k / ((mergedLambdas coarse fine).length * n)]?).bind fun L =>
        ((mergedLambdas coarse fine)[k / n %
            (mergedLambdas coarse fine).length]?).bind fun lam =>
          if 0 < n then some (mkJob bs (k + 1) (L, lam, 1 + k % n))
          else none := by
  rw [genJobs, List.getElem?_map, List.enum_eq_enumFrom,
    List.getElem?_enumFrom, getElem?_jobTriples]
  cases hL : sizes[k / ((mergedLambdas coarse fine).length * n)]? with
  | none => rfl
  | some L =>
    cases hlam : (mergedLambdas coarse fine)[k / n %
        (mergedLambdas coarse fine).length]? with
    | none => rfl
    | some lam =>
      by_cases hn : 0 < n
      · simp [hn]
      · simp [hn]

/-! ### Distinctness of output prefixes -/

/-- The `out_prefix` string as a function of the (size, coupling,
replica) triple alone. -/
def prefixOfTriple (t : ℕ × Dec × ℕ) : String :=
  "L" ++ toString t.1 ++ "_lam" ++ Dec.fmt3 t.2.1 ++ "_s" ++
    toString t.2.2

theorem outPrefixStr_eq (j : Job) :
    outPrefixStr j = prefixOfTriple (j.L, j.lam, j.sample) := rfl

theorem string_length_data (s : String) : s.data.length = s.length := rfl

/-- Two prefixes built from components of equal widths agree only if the
components agree. -/
theorem prefixOfTriple_inj {t₁ t₂ : ℕ × Dec × ℕ}
    (h1 : (toString t₁.1).length = (toString t₂.1).length)
    (h2 : (Dec.fmt3 t₁.2.1).length = (Dec.fmt3 t₂.2.1).length)
    (heq : prefixOfTriple t₁ = prefixOfTriple t₂) :
    toString t₁.1 = toString t₂.1 ∧ Dec.fmt3 t₁.2.1 = Dec.fmt3 t₂.2.1 ∧
      toString t₁.2.2 = toString t₂.2.2 := by
  have hd := congrArg String.data heq
  simp only [prefixOfTriple, String.data_append, List.append_assoc] at hd
  have hd1 := (List.append_right_inj _).mp hd
  obtain ⟨ha, hd2⟩ := List.append_inj hd1 (by
    rw [string_length_data, string_length_data, h1])
  have hd3 := (List.append_right_inj _).mp hd2
  obtain ⟨hb, hd4⟩ := List.append_inj hd3 (by
    rw [string_length_data, string_length_data, h2])
  have hd5 := (List.append_right_inj _).mp hd4
  exact ⟨String.ext ha, String.ext hb, String.ext hd5⟩

/-! ### Sortedness of the coupling axis -/

/-- The merged coupling axis is always sorted (non-strictly): it is the
result of an ascending sort. -/
theorem mergedLambdas_sorted (coarse fine : List Dec) :
    (mergedLambdas coarse fine).Sorted (· ≤ ·) :=
  List.sorted_insertionSort _ _

/-- The merged coupling axis never repeats a representation: it is a
permutation of a deduplicated list. -/
theorem mergedLambdas_nodup (coarse fine : List Dec) :
    (mergedLambdas coarse fine).Nodup :=
  (List.perm_insertionSort _ _).symm.nodup (List.nodup_dedup _)

/-! ### The claims -/

/-- C1: for every run, the number of emitted job lines equals
(number of sizes) × (number of distinct coupling values after merging
and deduplicating the two lists) × (replica count); with the script's
literal constants this is 5 × 17 × 3 = 255. -/
theorem claim_C1 :
    (∀ (sizes : List ℕ) (coarse fine : List Dec) (n bs : ℕ),
      (genLines sizes coarse fine n bs).length =
        sizes.length * (mergedLambdas coarse fine).length * n) ∧
    Ls.length = 5 ∧ lambdas.length = 17 ∧ samples_per_lambda = 3 ∧
    scriptLines.length = 5 * 17 * 3 ∧ scriptLines.length = 255 := by
  refine ⟨fun sizes coarse fine n bs => ?_, by decide, by decide, rfl,
    by decide, by decide⟩
  rw [genLines, List.length_map, length_genJobs, Nat.mul_assoc]

/-- C2: across any full enumeration the sequential identifiers are
exactly `1..total` with no gaps or repeats, every seed equals
`base_seed + identifier`; in the script's run the identifiers are
`1..255` and the seeds exactly `1235..1489`. -/
theorem claim_C2 :
    (∀ (sizes : List ℕ) (coarse fine : List Dec) (n bs : ℕ),
      (genJobs sizes coarse fine n bs).map Job.job_id =
        List.range' 1 (genJobs sizes coarse fine n bs).length ∧
      (genJobs sizes coarse fine n bs).map Job.seed =
        (genJobs sizes coarse fine n bs).map fun j => bs + j.job_id) ∧
    scriptJobs.map Job.job_id = List.range' 1 255 ∧
    scriptJobs.map Job.seed = List.range' 1235 255 :=
  ⟨fun sizes coarse fine n bs =>
    ⟨genJobs_map_job_id sizes coarse fine n bs,
     genJobs_map_seed sizes coarse fine n bs⟩,
   by decide, by decide⟩

/-- C3: the enumeration is size-major (list order), coupling-next
(the sorted axis order), replica-minor (`1..n`), with the identifier
incremented exactly once per combination: the k-th job (0-based) uses
size index `k / (#couplings * n)`, coupling index `k / n mod
#couplings`, replica `1 + k mod n`, and identifier `k + 1`.  In a run
with two sizes, two distinct coupling values (given in descending order
across the two input lists) and two replicas, exactly 8 jobs result,
with identifiers 1..8 in size-major, coupling-ascending, replica-minor
order. -/
theorem claim_C3 :
    (∀ (sizes : List ℕ) (coarse fine : List Dec) (n bs k : ℕ),
      (genJobs sizes coarse fine n bs)[k]? =
        (sizes[k / ((mergedLambdas coarse fine).length * n)]?).bind fun L =>
          ((mergedLambdas coarse fine)[k / n %
              (mergedLambdas coarse fine).length]?).bind fun lam =>
            if 0 < n then some (mkJob bs (k + 1) (L, lam, 1 + k % n))
            else none) ∧
    genJobs [12, 16] [⟨7, 1⟩] [⟨3, 1⟩] 2 1234 =
      [mkJob 1234 1 (12, ⟨3, 1⟩, 1), mkJob 1234 2 (12, ⟨3, 1⟩, 2),
       mkJob 1234 3 (12, ⟨7, 1⟩, 1), mkJob 1234 4 (12, ⟨7, 1⟩, 2),
       mkJob 1234 5 (16, ⟨3, 1⟩, 1), mkJob 1234 6 (16, ⟨3, 1⟩, 2),
       mkJob 1234 7 (16, ⟨7, 1⟩, 1), mkJob 1234 8 (16, ⟨7, 1⟩, 2)] :=
  ⟨getElem?_genJobs, by decide⟩

/-- C4: on every line of the script's run, `lambda_x + lambda_zz`
equals exactly 1 (stronger than the claimed "1.0 up to 6-decimal
rounding error"): rounding to 6 places is exact on these values. -/
theorem claim_C4 :
    ∀ j ∈ scriptJobs, j.lambda_x.toQ + j.lambda_zz.toQ = 1 := by
  intro j hj
  obtain ⟨-, hlam, -, hx, hz, -⟩ := mem_genJobs hj
  rw [hx, hz]
  refine Dec.roundTo_sum j.lam ?_
  have he : ∀ lam ∈ lambdas, lam.e ≤ 6 := by decide
  exact he _ hlam

theorem claim_C4_witness :
    (⟨12, ⟨1, 1⟩, ⟨100000, 6⟩, ⟨900000, 6⟩, 1235, 1, 1⟩ : Job) ∈
        scriptJobs ∧
      Dec.toQ ⟨100000, 6⟩ + Dec.toQ ⟨900000, 6⟩ = 1 :=
  ⟨by decide,
   claim_C4 ⟨12, ⟨1, 1⟩, ⟨100000, 6⟩, ⟨900000, 6⟩, 1235, 1, 1⟩
     (by decide)⟩

/-- C5: every merged coupling axis is ascending and free of repeated
entries, and the script's axis is strictly ascending (so its 17 values
are pairwise numerically distinct). -/
theorem claim_C5 :
    (∀ coarse fine : List Dec,
      (mergedLambdas coarse fine).Sorted (· ≤ ·) ∧
        (mergedLambdas coarse fine).Nodup) ∧
    lambdas.Sorted (· < ·) :=
  ⟨fun c f => ⟨mergedLambdas_sorted c f, mergedLambdas_nodup c f⟩,
   by decide⟩

/-- C6: with size list [12], coarse couplings [0.5], fine couplings
[0.5], one replica and base seed 1000, exactly one line is produced,
character for character the one the spec displays. -/
theorem claim_C6 :
    genLines [12] [⟨5, 1⟩] [⟨5, 1⟩] 1 1000 =
      ["--L 12 --lambda_x 0.5 --lambda_zz 0.5 --lambda 0.5 --maxdim 256 --cutoff 1e-12 --ntrials 1000 --chunk4 50000 --seed 1001 --sample 1 --out_prefix L12_lam0.500_s1 --outdir output"] := by
  decide

/-- C7: every emitted line of every run splits on single spaces into
exactly 24 nonempty tokens whose flags, in order, are the fixed twelve
`--name` flags; and the file content is exactly the lines, each
terminated by one newline (splitting the file on newlines returns the
lines plus the empty trailing segment). -/
theorem claim_C7 :
    ∀ (sizes : List ℕ) (coarse fine : List Dec) (n bs : ℕ),
      (∀ line ∈ genLines sizes coarse fine n bs,
        (tokensOf line).length = 24 ∧ evens (tokensOf line) = flagNames ∧
          ∀ t ∈ tokensOf line, t ≠ "") ∧
      splitOnChar (Char.ofNat 10)
          (fileContent (genLines sizes coarse fine n bs)).data =
        (genLines sizes coarse fine n bs).map String.data ++ [[]] := by
  intro sizes coarse fine n bs
  constructor
  · intro line hline
    rcases List.mem_map.mp hline with ⟨j, hj, rfl⟩
    refine ⟨?_, ?_, tokensOf_mkLine_ne_empty j⟩
    · rw [tokensOf_mkLine]
      rfl
    · rw [tokensOf_mkLine]
      rfl
  · refine splitNl_fileContent _ ?_
    intro l hl
    rcases List.mem_map.mp hl with ⟨j, hj, rfl⟩
    exact newline_not_mem_mkLine j

theorem claim_C7_witness :
    ("--L 12 --lambda_x 0.1 --lambda_zz 0.9 --lambda 0.1 --maxdim 256 --cutoff 1e-12 --ntrials 1000 --chunk4 50000 --seed 1235 --sample 1 --out_prefix L12_lam0.100_s1 --outdir output" : String) ∈
        scriptLines ∧
      (tokensOf "--L 12 --lambda_x 0.1 --lambda_zz 0.9 --lambda 0.1 --maxdim 256 --cutoff 1e-12 --ntrials 1000 --chunk4 50000 --seed 1235 --sample 1 --out_prefix L12_lam0.100_s1 --outdir output").length = 24 :=
  ⟨by decide,
   ((claim_C7 Ls coarse_lambdas fine_lambdas samples_per_lambda
      base_seed).1 _ (by decide)).1⟩

/-- C8: within the script's run the (size, coupling, replica) triples
are pairwise distinct, and so are the generated `out_prefix` strings:
distinct triples always receive distinct prefixes. -/
theorem claim_C8 :
    (scriptJobs.map fun j => (j.L, j.lam, j.sample)).Nodup ∧
    (scriptJobs.map outPrefixStr).Nodup := by
  have htr : (scriptJobs.map fun j => (j.L, j.lam, j.sample)).Nodup := by
    decide
  refine ⟨htr, ?_⟩
  have hmap : scriptJobs.map outPrefixStr =
      ((scriptJobs.map fun j => (j.L, j.lam, j.sample)).map
        prefixOfTriple) := by
    rw [List.map_map]
    rfl
  rw [hmap]
  refine List.Nodup.map_on ?_ htr
  have hax : ∀ t ∈ scriptJobs.map fun j => (j.L, j.lam, j.sample),
      t.1 ∈ Ls ∧ t.2.1 ∈ lambdas ∧
        t.2.2 ∈ List.range' 1 samples_per_lambda := by
    intro t ht
    rcases List.mem_map.mp ht with ⟨j, hj, rfl⟩
    obtain ⟨h1, h2, h3, -⟩ := mem_genJobs hj
    exact ⟨h1, h2, h3⟩
  have hlen2 : ∀ L ∈ Ls, (toString L).length = 2 := by decide
  have hlen5 : ∀ lam ∈ lambdas, (Dec.fmt3 lam).length = 5 := by decide
  have hLinj : ∀ a ∈ Ls, ∀ b ∈ Ls, toString a = toString b → a = b := by
    decide
  have hlaminj : ∀ a ∈ lambdas, ∀ b ∈ lambdas,
      Dec.fmt3 a = Dec.fmt3 b → a = b := by decide
  have hsinj : ∀ a ∈ List.range' 1 samples_per_lambda,
      ∀ b ∈ List.range' 1 samples_per_lambda,
        toString a = toString b → a = b := by decide
  intro x hx y hy hxy
  obtain ⟨hxL, hxlam, hxs⟩ := hax x hx
  obtain ⟨hyL, hylam, hys⟩ := hax y hy
  obtain ⟨e1, e2, e3⟩ := prefixOfTriple_inj
    (by rw [hlen2 _ hxL, hlen2 _ hyL])
    (by rw [hlen5 _ hxlam, hlen5 _ hylam]) hxy
  rcases x with ⟨xL, xlam, xs⟩
  rcases y with ⟨yL, ylam, ys⟩
  simp only [Prod.mk.injEq]
  exact ⟨hLinj _ hxL _ hyL e1, hlaminj _ hxlam _ hylam e2,
    hsinj _ hxs _ hys e3⟩

/-- C9: an empty axis is not rejected: with an empty size axis, an
empty coupling axis, or a zero replica count, the generator emits zero
lines, the file content is empty, and the summary reports zero
generated combinations. -/
theorem claim_C9 :
    (∀ (coarse fine : List Dec) (n bs : ℕ),
      genLines [] coarse fine n bs = [] ∧
      fileContent (genLines [] coarse fine n bs) = "" ∧
      (summary [] (mergedLambdas coarse fine) n
          (genLines [] coarse fine n bs)).head? =
        some "Generated 0 parameter combinations") ∧
    (∀ (sizes : List ℕ) (n bs : ℕ),
      genLines sizes [] [] n bs = [] ∧
      fileContent (genLines sizes [] [] n bs) = "" ∧
      (summary sizes (mergedLambdas [] []) n
          (genLines sizes [] [] n bs)).head? =
        some "Generated 0 parameter combinations") ∧
    (∀ (sizes : List ℕ) (coarse fine : List Dec) (bs : ℕ),
      genLines sizes coarse fine 0 bs = [] ∧
      fileContent (genLines sizes coarse fine 0 bs) = "" ∧
      (summary sizes (mergedLambdas coarse fine) 0
          (genLines sizes coarse fine 0 bs)).head? =
        some "Generated 0 parameter combinations") := by
  refine ⟨fun coarse fine n bs => ?_, fun sizes n bs => ?_,
    fun sizes coarse fine bs => ?_⟩
  · have h1 : genLines [] coarse fine n bs = [] := rfl
    rw [h1]
    exact ⟨rfl, rfl, rfl⟩
  · have htr : jobTriples sizes (mergedLambdas [] []) n = [] :=
      List.flatMap_eq_nil_iff.mpr fun x _ => rfl
    have hlines : genLines sizes [] [] n bs = [] := by
      rw [genLines, genJobs, htr]
      rfl
    rw [hlines]
    exact ⟨rfl, rfl, rfl⟩
  · have htr : jobTriples sizes (mergedLambdas coarse fine) 0 = [] :=
      List.flatMap_eq_nil_iff.mpr fun x _ =>
        List.flatMap_eq_nil_iff.mpr fun y _ => rfl
    have hlines : genLines sizes coarse fine 0 bs = [] := by
      rw [genLines, genJobs, htr]
      rfl
    rw [hlines]
    exact ⟨rfl, rfl, rfl⟩

/-- C10: rounding to 6 decimal places is the identity (in value) on
every value of the merged coupling grid, and on every line of the
script's run the token rendered for `lambda_x` is identical to the
token rendered for `lambda`. -/
theorem claim_C10 :
    (∀ lam ∈ lambdas, (Dec.roundTo 6 lam).toQ = lam.toQ) ∧
    scriptJobs.map (fun j => Dec.pyRepr j.lambda_x) =
      scriptJobs.map fun j => Dec.pyRepr j.lam := by
  constructor
  · intro lam hlam
    refine Dec.toQ_roundTo ?_
    have he : ∀ l ∈ lambdas, l.e ≤ 6 := by decide
    exact he _ hlam
  · decide

theorem claim_C10_witness :
    (⟨1, 1⟩ : Dec) ∈ lambdas ∧
      (Dec.roundTo 6 ⟨1, 1⟩).toQ = Dec.toQ ⟨1, 1⟩ :=
  ⟨by decide, claim_C10.1 ⟨1, 1⟩ (by decide)⟩

end GenerateParams
